import Mathlib

/-!
Shallow embedding, in Lean 4, of the job-posting extraction pipeline of
`src/job_site.py` (classes `_BaseSite`, `Lever`, `_LeverJob`).

Python strings are modelled as `List Char`; the Python string methods the
source uses (`split`, `replace`, `lower`, `strip`, `rstrip`, `in`,
slicing) are given executable Lean counterparts with matching semantics.
HTML pages fetched with BeautifulSoup are modelled by a `Page` structure
holding, for each region the parser consults, the text that the
corresponding `find` call would return (`none` when the region is
absent, which is the case in which the Python code raises and catches an
exception).
-/

/-- Python strings are modelled as lists of characters. -/
abbrev Str := List Char

/-- The characters of a Lean string literal, used to write concrete
Python string constants from the source. -/
def chars (s : String) : Str := s.data

/-- Python `str.lower()` (the source only lowercases ASCII text). -/
def pyLower (s : Str) : Str := s.map Char.toLower

/-- Python `needle in s` substring test: some suffix of `s` starts
with `needle`. -/
def pyContains (needle : Str) : Str → Bool
  | [] => needle.isPrefixOf []
  | c :: t => needle.isPrefixOf (c :: t) || pyContains needle t

/-- Fuel-driven worker for `pyReplace`: scans left to right; at the
first position where `needle` matches it emits `repl`, skips the
matched characters, and continues after them (Python's non-overlapping
left-to-right replacement).  `fuel` only ensures structural recursion;
`fuel = s.length` is always enough when `needle` is nonempty. -/
def replaceFuel (needle repl : Str) : Nat → Str → Str
  | _, [] => []
  | 0, s => s
  | fuel + 1, c :: t =>
    if needle.isPrefixOf (c :: t) then
      repl ++ replaceFuel needle repl fuel ((c :: t).drop needle.length)
    else
      c :: replaceFuel needle repl fuel t

/-- Python `s.replace(needle, repl)` for a nonempty `needle` (every
call site in the source passes a nonempty literal; the empty-needle
case, unused, is modelled as the identity). -/
def pyReplace (needle repl s : Str) : Str :=
  if needle.isEmpty then s else replaceFuel needle repl s.length s

/-- Python `s.split(sep)` for a single-character separator (the source
splits on `'/'`, `' '` and `'-'` only): empty pieces are kept, and the
result is never the empty list. -/
def splitChar (sep : Char) : Str → List Str
  | [] => [[]]
  | c :: t =>
    if c = sep then [] :: splitChar sep t
    else
      match splitChar sep t with
      | [] => [[c]]
      | h :: r => (c :: h) :: r

/-- Python `s.strip()`: whitespace removed from both ends. -/
def pyStrip (s : Str) : Str :=
  ((s.dropWhile Char.isWhitespace).reverse.dropWhile Char.isWhitespace).reverse

/-- Python `s.rstrip(c)` for a single character: trailing copies of `c`
removed. -/
def pyRstrip (c : Char) (s : Str) : Str :=
  (s.reverse.dropWhile (· = c)).reverse

/-- Python `float(s)` as used on the digit strings produced by
`_LeverJob._clean_money_string` after `','`, `'$'`, `'.'` and `'-'`
have been removed: the parse succeeds exactly on nonempty all-digit
strings and yields their value (exotic `float` forms such as exponent
notation, `inf` or `nan` never arise from salary text and are modelled
as failures, which the source turns into an absent salary). -/
def pyFloatDigits (s : Str) : Option Nat :=
  if s ≠ [] ∧ s.all Char.isDigit then
    some (s.foldl (fun acc c => 10 * acc + (c.toNat - '0'.toNat)) 0)
  else none

/-- Python `list.sort(reverse=True)` on numbers: sort descending. -/
def sortDesc (l : List Nat) : List Nat :=
  l.insertionSort (fun a b => b ≤ a)

/-! ## Link processing (`Lever._validate_link`, `Lever._process_links`) -/

/-- `Lever.__init__` fixes `self.url = 'lever.co'` (src/job_site.py:90). -/
def lever_url : Str := chars "lever.co"

/-- `Lever._validate_link` (src/job_site.py:114-123): the link is
truthy, longer than the site url, the site url occurs in the slice
`link[:len(self.url)]`, `'/?q='` does not occur in the link, and after
`link.replace('https://jobs.lever.co/', '')` the split on `'/'` has
more than one piece. -/
def validate_link (siteUrl link : Str) : Bool :=
  link ≠ [] &&
  siteUrl.length < link.length &&
  pyContains siteUrl (link.take siteUrl.length) &&
  !pyContains (chars "/?q=") link &&
  1 < (splitChar '/' (pyReplace (chars "https://jobs.lever.co/") [] link)).length

/-- `Lever._validate_link` with the `Lever` instance's fixed url. -/
def lever_validate_link (link : Str) : Bool :=
  validate_link lever_url link

/-- The record built per link by `Lever._process_links`:
`{'desc': ..., 'apply': ...}`. -/
structure LinkRecord where
  desc : Option Str
  apply : Option Str
deriving DecidableEq, Repr

/-- Python `iLink.split('/')[-1]`: the last piece of the `'/'` split
(total here because `splitChar` never returns `[]`). -/
def lastSegment (link : Str) : Str :=
  (splitChar '/' link).getLastD []

/-- `Lever._process_links` (src/job_site.py:97-112): for each validated
link, if the last path segment lowercased is not `'apply'`, the link is
the description url and the application url is the link with `'/'`
appended when it does not already end in `'/'`, followed by `'apply'`;
otherwise the link is the application url and the description url is
`iLink.replace('apply', '')`.  Links that fail validation produce no
record. -/
def process_links : List Str → List LinkRecord
  | [] => []
  | l :: rest =>
    if lever_validate_link l then
      (if pyLower (lastSegment l) ≠ chars "apply" then
        { desc := some l
          apply := some ((if l.getLast? ≠ some '/' then l ++ ['/'] else l) ++ chars "apply") }
      else
        { desc := some (pyReplace (chars "apply") [] l)
          apply := some l }) :: process_links rest
    else
      process_links rest

/-! ## Location classification (`Lever._validate_location_in_usa`) -/

/-- The five reference tables loaded by `_BaseSite` from
`files/helpers/*.csv` (contents external to the repository; they enter
the model as parameters). -/
structure Tables where
  foreign_countries : List Str
  non_us_cities : List Str
  us_cities : List Str
  us_states_full : List Str
  us_states_abbreviated : List Str

/-- `Lever._check_if_exists_in_array` (src/job_site.py:143-144):
`np.where(array == value)` is nonempty exactly when the value is a
member of the array. -/
def check_if_exists_in_array (v : Str) (a : List Str) : Bool :=
  a.contains v

/-- `Lever._validate_location_in_usa` (src/job_site.py:146-170):
tokens are scanned in order; for each token, a 2-character token found
among abbreviated states returns `True`; then a foreign-country hit
returns `False`; then a full-state hit returns `True`; then a US-city
hit returns `True`; then a non-US-city hit returns `False`; a token
matching nothing falls through to the next token, and exhaustion
returns `None`. -/
def validate_location_in_usa (locations : List Str) (tb : Tables) : Option Bool :=
  match locations with
  | [] => none
  | l :: rest =>
    if l.length = 2 && check_if_exists_in_array l tb.us_states_abbreviated then some true
    else if check_if_exists_in_array l tb.foreign_countries then some false
    else if check_if_exists_in_array l tb.us_states_full then some true
    else if check_if_exists_in_array l tb.us_cities then some true
    else if check_if_exists_in_array l tb.non_us_cities then some false
    else validate_location_in_usa rest tb

/-! ## Pages and posting parsing (`_LeverJob`) -/

/-- A fetched posting page, HTML regions abstracted to the text the
parser's BeautifulSoup `find` calls would return: `find('title')`, the
divs of classes `location`, `department`, `commitment` and
`workplaceTypes`, the list of `section page-centered` divs (each
reduced to the texts of its `li` items, as consumed by
`_parse_desc_and_qual`), and the two `data-qa`-tagged sections used by
`_parse_salary`.  `none` models a `find` returning `None`, on which the
Python code's attribute access raises and is caught. -/
structure Page where
  title : Option Str := none
  locationDiv : Option Str := none
  departmentDiv : Option Str := none
  commitmentDiv : Option Str := none
  workplaceTypesDiv : Option Str := none
  sections : List (List Str) := []
  salaryRangeDiv : Option Str := none
  closingDescDiv : Option Str := none
deriving DecidableEq, Repr

/-- `Lever._parse_location_info` (src/job_site.py:133-141): the
location div's text with `','` removed and split on `' '`, as a Python
`set` (modelled as first-occurrence deduplication; CPython set order is
unspecified, and no theorem below depends on the order), keeping
nonempty tokens lowercased; `None` when the div is missing. -/
def parse_location_info (page : Page) : Option (List Str) :=
  match page.locationDiv with
  | none => none
  | some t =>
    some ((((splitChar ' ' (pyReplace (chars ",") [] t)).dedup).filter (· ≠ [])).map pyLower)

/-- The fields `_LeverJob._parse_using_title_tag`
(src/job_site.py:273-285) computes from the title tag: company is the
first `'-'` piece stripped, title the last piece stripped, and location
is `'Remote'` when the title text contains `'remote'` lowercased;
nothing is set when the tag is missing. -/
def parse_using_title_tag (page : Page) : Option Str × Option Str × Option Str :=
  match page.title with
  | none => (none, none, none)
  | some h =>
    (some (pyStrip ((splitChar '-' h).headD [])),
     some (pyStrip ((splitChar '-' h).getLastD [])),
     if pyContains (chars "remote") (pyLower h) then some (chars "Remote") else none)

/-- `_LeverJob._parse_location` (src/job_site.py:287-293): the location
div is consulted only when `self.location` is still `None`; a missing
div leaves the location `None`. -/
def parse_location_step (page : Page) (location : Option Str) : Option Str :=
  match location with
  | some l => some l
  | none => page.locationDiv.map (pyRstrip '/')

/-- The per-item cleaning of `_LeverJob._clean_desc_and_qual`
(src/job_site.py:336): `j.replace('\\xa0', ' ')` (the literal
four-character artifact, as written in the source) then both bracket
characters removed. -/
def clean_item (j : Str) : Str :=
  pyReplace (chars "]") [] (pyReplace (chars "[") [] (pyReplace (chars "\\xa0") (chars " ") j))

/-- `_LeverJob._clean_desc_and_qual` (src/job_site.py:334-342): items
whose raw text is longer than 3 characters are kept and cleaned, then
concatenated, each with its double quotes removed and a `' '`
appended. -/
def clean_desc_and_qual (items : List Str) : Str :=
  let raw_string := (items.filter (fun j => 3 < j.length)).map clean_item
  raw_string.foldl (fun acc s => acc ++ pyReplace (chars "\x22") [] s ++ chars " ") []

/-- `_LeverJob._clean_money_string` (src/job_site.py:344-351): the
text is split on `' '`; each token containing `'$'` has `','`, `'$'`,
`'.'` and `'-'` removed and is passed to `float`; a failing parse
raises (modelled as `none`), which `_parse_salary` catches. -/
def clean_money_string (text : Str) : Option (List Nat) :=
  ((splitChar ' ' text).filter (fun t => pyContains (chars "$") t)).mapM
    (fun t =>
      pyFloatDigits
        (pyReplace (chars "-") []
          (pyReplace (chars ".") []
            (pyReplace (chars "$") []
              (pyReplace (chars ",") [] t)))))

/-- `_LeverJob._parse_salary` (src/job_site.py:353-378), returning
`(min_salary, max_salary)`: money tokens are taken from the
salary-range section, or from the closing-description section only
when the former is absent; with more than one parsed number the list
is sorted descending and the first two become `(max, min)`; otherwise
(including a raising `float`) both stay `None`. -/
def parse_salary (page : Page) : Option Nat × Option Nat :=
  let salary? : Option (List Nat) :=
    match page.salaryRangeDiv with
    | some t => clean_money_string t
    | none =>
      match page.closingDescDiv with
      | some t => clean_money_string t
      | none => some []
  match salary? with
  | none => (none, none)
  | some salary =>
    if 1 < salary.length then
      ((sortDesc salary).get? 1, (sortDesc salary).get? 0)
    else (none, none)

/-- The exported record of `_LeverJob._record_of_details`
(src/job_site.py:390-406). -/
structure PostingRecord where
  company : Option Str
  title : Option Str
  team : Option Str
  location : Option Str
  hours : Option Str
  wfh : Option Str
  min_salary : Option Nat
  max_salary : Option Nat
  desc : Option Str
  qual : Option Str
  posting : Option Str
  apply : Option Str
  scraped : Str
  applied : Bool
deriving DecidableEq, Repr

/-- `_LeverJob.export_posting_info` (src/job_site.py:380-388) on a
page, with the link pair from the constructor and the scrape date
(`datetime.today()`, external) as a parameter: the parse steps run in
source order — title tag, location, team, hours, wfh, description and
qualifications (second and third `section page-centered` divs; a
missing index raises and is caught, leaving the field `None`), then
salary. -/
def export_posting_info (page : Page) (descLink applyLink : Option Str) (today : Str) :
    PostingRecord :=
  let tt := parse_using_title_tag page
  let location := parse_location_step page tt.2.2
  let team := page.departmentDiv.map (pyRstrip '/')
  let hours := page.commitmentDiv.map (pyRstrip '/')
  let wfh := page.workplaceTypesDiv.map (pyRstrip '/')
  let desc := (page.sections.get? 1).map clean_desc_and_qual
  let qual := (page.sections.get? 2).map clean_desc_and_qual
  let sal := parse_salary page
  { company := tt.1
    title := tt.2.1
    team := team
    location := location
    hours := hours
    wfh := wfh
    min_salary := sal.1
    max_salary := sal.2
    desc := desc
    qual := qual
    posting := descLink
    apply := applyLink
    scraped := today
    applied := false }

/-! ## The save loop and the record store (`Lever.save_job_info`) -/

/-- The accumulation loop of `Lever.save_job_info`
(src/job_site.py:179-191): per link record, fetch the description page
(`_get_job_desc_page_source` returns `None` on any error, so the fetch
is a parameter returning `Option Page`), skip the posting when the
fetch or the location parse fails, classify the location tokens, and
export a posting record only on an explicit `True`. -/
def save_job_info_records (fetch : LinkRecord → Option Page) (tb : Tables) (today : Str) :
    List LinkRecord → List PostingRecord
  | [] => []
  | j :: rest =>
    match fetch j with
    | none => save_job_info_records fetch tb today rest
    | some page =>
      match parse_location_info page with
      | none => save_job_info_records fetch tb today rest
      | some toks =>
        if validate_location_in_usa toks tb = some true then
          export_posting_info page j.desc j.apply today ::
            save_job_info_records fetch tb today rest
        else
          save_job_info_records fetch tb today rest

/-- One write to the tabular destination: `mode_append = false` is
pandas `to_csv(mode='x')` (create new), `true` is `mode='a'`. -/
structure CsvWrite (α : Type) where
  mode_append : Bool
  header : Bool
  rows : List α
deriving DecidableEq, Repr

/-- `to_csv(..., mode='x', header=True)`: creating the destination
fails (raises, modelled as `none`) exactly when it already exists. -/
def to_csv_create (destExists : Bool) (rows : List α) : Option (CsvWrite α) :=
  if destExists then none else some { mode_append := false, header := true, rows := rows }

/-- The persistence tail of `Lever.save_job_info`
(src/job_site.py:193-207): with more than one accumulated record, try
the create-new write and, when it raises, fall back to appending the
same rows with `header=False`; with one or zero records nothing is
written. -/
def save_job_info_store (rows : List α) (destExists : Bool) : Option (CsvWrite α) :=
  if 1 < rows.length then
    match to_csv_create destExists rows with
    | some w => some w
    | none => some { mode_append := true, header := false, rows := rows }
  else none

/-! ## Claim-comparison helpers -/

/-- Modelled from the spec: the link validation as the specification
words it ("after stripping the domain's canonical prefix", claim C6:
"after stripping the canonical prefix `https://jobs.lever.co/`"),
i.e. the prefix is removed from the front when the link starts with it
and the link is left unchanged otherwise — in contrast to the source's
`link.replace('https://jobs.lever.co/', '')`, which removes every
occurrence of that substring anywhere in the link.  The other four
conditions follow both the spec and the source. -/
def validate_link_spec (link : Str) : Bool :=
  link ≠ [] &&
  lever_url.length < link.length &&
  lever_url.isPrefixOf link &&
  !pyContains (chars "/?q=") link &&
  1 < (splitChar '/'
    (if (chars "https://jobs.lever.co/").isPrefixOf link then
      link.drop (chars "https://jobs.lever.co/").length
    else link)).length

/-- The paired URL of claim C7: run `process_links` on the single url
and take the application url when the url was a description url (last
segment not `'apply'`), the description url when it ended in
`'apply'`. -/
def derived_paired_url (u : Str) : Option Str :=
  match process_links [u] with
  | [r] => if pyLower (lastSegment u) = chars "apply" then r.desc else r.apply
  | _ => none

/-! ## Lemmas about the string model -/

theorem pfxBool {l s : Str} : l.isPrefixOf s = true ↔ l <+: s := by simp

theorem pfx_refl (l : Str) : l.isPrefixOf l = true :=
  pfxBool.2 (List.prefix_refl l)

theorem pfx_append (l t : Str) : l.isPrefixOf (l ++ t) = true :=
  pfxBool.2 (List.prefix_append l t)

theorem pfx_length_le {l s : Str} (h : l.isPrefixOf s = true) : l.length ≤ s.length :=
  (pfxBool.1 h).length_le

theorem pfx_exists_append {l s : Str} (h : l.isPrefixOf s = true) :
    ∃ t, s = l ++ t := by
  obtain ⟨t, ht⟩ := pfxBool.1 h
  exact ⟨t, ht.symm⟩

theorem pfx_eq_of_length_le {l s : Str} (h : l.isPrefixOf s = true)
    (hl : s.length ≤ l.length) : l = s := by
  obtain ⟨t, rfl⟩ := pfx_exists_append h
  simp only [List.length_append] at hl
  have ht : t = [] := List.eq_nil_of_length_eq_zero (by omega)
  simp [ht]

theorem pfx_take {l s : Str} (h : l.isPrefixOf s = true) : s.take l.length = l := by
  obtain ⟨t, rfl⟩ := pfx_exists_append h
  exact List.take_left l t

theorem pfx_of_take {l s : Str} (h : s.take l.length = l) : l.isPrefixOf s = true :=
  pfxBool.2 ⟨s.drop l.length, by conv_rhs => rw [← List.take_append_drop l.length s, h]⟩

theorem pyContains_of_pfx {n s : Str} (h : n.isPrefixOf s = true) :
    pyContains n s = true := by
  cases s with
  | nil => simp only [pyContains]; exact h
  | cons c t => simp [pyContains, h]

theorem pyContains_length_le {n s : Str} (h : pyContains n s = true) :
    n.length ≤ s.length := by
  induction s with
  | nil =>
    simp only [pyContains] at h
    exact pfx_length_le h
  | cons c t ih =>
    simp only [pyContains, Bool.or_eq_true] at h
    rcases h with h | h
    · exact pfx_length_le h
    · exact Nat.le_trans (ih h) (by simp)

theorem pyContains_eq_of_length_le {n s : Str} (h : pyContains n s = true)
    (hl : s.length ≤ n.length) : n = s := by
  cases s with
  | nil =>
    simp only [pyContains] at h
    exact pfx_eq_of_length_le h (by simp)
  | cons c t =>
    simp only [pyContains, Bool.or_eq_true] at h
    rcases h with h | h
    · exact pfx_eq_of_length_le h hl
    · have h1 := pyContains_length_le h
      simp only [List.length_cons] at hl
      omega

theorem pyContains_self (s : Str) : pyContains s s = true :=
  pyContains_of_pfx (pfx_refl s)

/-- `pyContains n s` holds exactly when `n` occurs as an infix of
`s`. -/
theorem pyContains_iff_infix {n s : Str} :
    pyContains n s = true ↔ ∃ a b, s = a ++ n ++ b := by
  constructor
  · intro h
    induction s with
    | nil =>
      simp only [pyContains] at h
      exact ⟨[], [], by simpa using (pfx_eq_of_length_le h (by simp)).symm⟩
    | cons c t ih =>
      simp only [pyContains, Bool.or_eq_true] at h
      rcases h with h | h
      · obtain ⟨u, hu⟩ := pfx_exists_append h
        exact ⟨[], u, by simp [hu]⟩
      · obtain ⟨a, b, hab⟩ := ih h
        exact ⟨c :: a, b, by simp [hab]⟩
  · rintro ⟨a, b, rfl⟩
    induction a with
    | nil => simpa using pyContains_of_pfx (pfx_append n b)
    | cons c a ih =>
      simp only [List.cons_append, pyContains, Bool.or_eq_true]
      exact Or.inr ih

theorem replaceFuel_congr {n : Str} (hn : n ≠ []) (r : Str) :
    ∀ (f₁ f₂ : Nat) (s : Str), s.length ≤ f₁ → s.length ≤ f₂ →
      replaceFuel n r f₁ s = replaceFuel n r f₂ s := by
  intro f₁
  induction f₁ with
  | zero =>
    intro f₂ s h1 _
    have hs : s = [] := List.eq_nil_of_length_eq_zero (Nat.le_zero.1 h1)
    cases f₂ <;> simp [hs, replaceFuel]
  | succ f ih =>
    intro f₂ s h1 h2
    cases s with
    | nil => cases f₂ <;> simp [replaceFuel]
    | cons c t =>
      cases f₂ with
      | zero => simp at h2
      | succ f' =>
        simp only [replaceFuel]
        by_cases hp : n.isPrefixOf (c :: t) = true
        · rw [if_pos hp, if_pos hp]
          have hn1 : 1 ≤ n.length := by
            cases n with
            | nil => exact absurd rfl hn
            | cons a b => simp
          have hd1 : ((c :: t).drop n.length).length ≤ f := by
            simp only [List.length_drop, List.length_cons] at *
            omega
          have hd2 : ((c :: t).drop n.length).length ≤ f' := by
            simp only [List.length_drop, List.length_cons] at *
            omega
          rw [ih f' _ hd1 hd2]
        · rw [if_neg hp, if_neg hp]
          have ht1 : t.length ≤ f := by
            simp only [List.length_cons] at h1
            omega
          have ht2 : t.length ≤ f' := by
            simp only [List.length_cons] at h2
            omega
          rw [ih f' t ht1 ht2]

theorem pyReplace_nil (n r : Str) : pyReplace n r [] = [] := by
  by_cases h : n.isEmpty <;> simp [pyReplace, h, replaceFuel]

theorem pyReplace_cons {n : Str} (hn : n ≠ []) (r : Str) (c : Char) (t : Str) :
    pyReplace n r (c :: t) =
      if n.isPrefixOf (c :: t) then r ++ pyReplace n r ((c :: t).drop n.length)
      else c :: pyReplace n r t := by
  have hn' : n.isEmpty = false := by cases n with
    | nil => exact absurd rfl hn
    | cons a b => rfl
  have hn1 : 1 ≤ n.length := by cases n with
    | nil => exact absurd rfl hn
    | cons a b => simp
  simp only [pyReplace, hn', Bool.false_eq_true, if_false, List.length_cons]
  simp only [replaceFuel]
  by_cases hp : n.isPrefixOf (c :: t) = true
  · rw [if_pos hp, if_pos hp]
    congr 1
    exact replaceFuel_congr hn r t.length _ _
      (by simp only [List.length_drop, List.length_cons]; omega)
      (Nat.le_refl _)
  · rw [if_neg hp, if_neg hp]

theorem pyReplace_of_not_contains {n s : Str} (h : pyContains n s = false) (r : Str) :
    pyReplace n r s = s := by
  have hn : n ≠ [] := by
    intro hn
    subst hn
    cases s <;> simp [pyContains, List.isPrefixOf] at h
  induction s with
  | nil => exact pyReplace_nil n r
  | cons c t ih =>
    simp only [pyContains, Bool.or_eq_false_iff] at h
    rw [pyReplace_cons hn r c t, h.1]
    simp only [Bool.false_eq_true, if_false]
    rw [ih h.2]

theorem pyReplace_append_no_match {n : Str} (r : Str) :
    ∀ (a b : Str), (∀ i < a.length, n.isPrefixOf ((a ++ b).drop i) = false) →
      pyReplace n r (a ++ b) = a ++ pyReplace n r b := by
  intro a
  induction a with
  | nil => intro b _; simp
  | cons c a ih =>
    intro b h
    have hn : n ≠ [] := by
      intro hn
      have h0 := h 0 (by simp)
      subst hn
      simp [List.isPrefixOf] at h0
    have h0 := h 0 (by simp)
    simp only [List.drop_zero, List.cons_append] at h0
    rw [List.cons_append, pyReplace_cons hn r c (a ++ b), h0]
    simp only [Bool.false_eq_true, if_false]
    rw [ih b (fun i hi => by simpa using h (i + 1) (by simpa using hi))]
    rfl

theorem mem_replaceFuel_of_mem {n : Str} (hn : n ≠ []) {c : Char} (hc : c ∉ n) (r : Str) :
    ∀ (f : Nat) (s : Str), s.length ≤ f → c ∈ s → c ∈ replaceFuel n r f s := by
  intro f
  induction f with
  | zero =>
    intro s h1 h2
    have hs : s = [] := List.eq_nil_of_length_eq_zero (Nat.le_zero.1 h1)
    subst hs
    simp at h2
  | succ f ih =>
    intro s h1 h2
    cases s with
    | nil => simp at h2
    | cons d t =>
      simp only [replaceFuel]
      by_cases hp : n.isPrefixOf (d :: t) = true
      · simp only [hp, if_true, List.mem_append]
        right
        obtain ⟨u, hu⟩ := pfx_exists_append hp
        have hcu : c ∈ u := by
          rw [hu] at h2
          rcases List.mem_append.1 h2 with h | h
          · exact absurd h hc
          · exact h
        have hdrop : (d :: t).drop n.length = u := by rw [hu]; simp
        rw [hdrop]
        refine ih u ?_ hcu
        have hlu := congrArg List.length hu
        have hn1 : 1 ≤ n.length := by
          cases n with
          | nil => exact absurd rfl hn
          | cons a b => simp
        simp only [List.length_cons, List.length_append] at hlu h1
        omega
      · simp only [hp, if_false]
        rcases List.mem_cons.1 h2 with h | h
        · exact List.mem_cons.2 (Or.inl h)
        · refine List.mem_cons.2 (Or.inr (ih t ?_ h))
          simp only [List.length_cons] at h1
          omega

theorem mem_pyReplace_of_mem {n s : Str} {c : Char} (hc : c ∉ n) (hs : c ∈ s) (r : Str) :
    c ∈ pyReplace n r s := by
  by_cases h : n.isEmpty
  · simpa [pyReplace, h] using hs
  · simp only [pyReplace, h, Bool.false_eq_true, if_false]
    have hn : n ≠ [] := by
      intro hn
      subst hn
      simp [List.isEmpty] at h
    exact mem_replaceFuel_of_mem hn hc r s.length s (Nat.le_refl _) hs

theorem splitChar_ne_nil (sep : Char) (s : Str) : splitChar sep s ≠ [] := by
  cases s with
  | nil => simp [splitChar]
  | cons c t =>
    simp only [splitChar]
    by_cases h : c = sep
    · simp [h]
    · simp only [h, if_false]
      cases splitChar sep t <;> simp

theorem splitChar_two_le_of_mem {sep : Char} {s : Str} (h : sep ∈ s) :
    2 ≤ (splitChar sep s).length := by
  induction s with
  | nil => simp at h
  | cons c t ih =>
    simp only [splitChar]
    by_cases hc : c = sep
    · simp only [hc, if_true, List.length_cons]
      have := splitChar_ne_nil sep t
      have : 1 ≤ (splitChar sep t).length := by
        cases hsp : splitChar sep t with
        | nil => exact absurd hsp this
        | cons a b => simp
      omega
    · simp only [hc, if_false]
      have hmem : sep ∈ t := by
        rcases List.mem_cons.1 h with h | h
        · exact absurd h.symm hc
        · exact h
      have h2 := ih hmem
      cases hsp : splitChar sep t with
      | nil => exact absurd hsp (splitChar_ne_nil sep t)
      | cons a b =>
        rw [hsp] at h2
        simpa using h2

theorem splitChar_eq_self_of_not_mem {sep : Char} {s : Str} (h : sep ∉ s) :
    splitChar sep s = [s] := by
  induction s with
  | nil => simp [splitChar]
  | cons c t ih =>
    simp only [List.mem_cons, not_or] at h
    have hc : ¬ c = sep := fun hcc => h.1 hcc.symm
    simp only [splitChar, hc, if_false, ih h.2]

theorem pyLower_length (s : Str) : (pyLower s).length = s.length := by
  simp [pyLower]

/-- Unfolding of `Lever._validate_link` into its five conditions. -/
theorem validate_link_iff (link : Str) :
    lever_validate_link link = true ↔
      link ≠ [] ∧ 8 < link.length ∧ pyContains lever_url (link.take 8) = true ∧
      pyContains (chars "/?q=") link = false ∧
      1 < (splitChar '/' (pyReplace (chars "https://jobs.lever.co/") [] link)).length := by
  have h8 : lever_url.length = 8 := by decide
  simp only [lever_validate_link, validate_link, h8, Bool.and_eq_true, decide_eq_true_eq,
    Bool.not_eq_true', ne_eq]
  tauto

/-- A validated link's first eight characters are exactly the site
url. -/
theorem validate_take_eq {link : Str} (h : lever_validate_link link = true) :
    link.take 8 = lever_url := by
  obtain ⟨-, hlen, hc, -, -⟩ := (validate_link_iff link).1 h
  have hle : (link.take 8).length ≤ lever_url.length := by
    have : lever_url.length = 8 := by decide
    simp [this]
  exact (pyContains_eq_of_length_le hc hle).symm

/-- A validated link splits as the site url followed by a tail. -/
theorem validate_exists_tail {link : Str} (h : lever_validate_link link = true) :
    ∃ t, link = lever_url ++ t := by
  refine ⟨link.drop 8, ?_⟩
  conv_lhs => rw [← List.take_append_drop 8 link, validate_take_eq h]

/-- Links failing validation contribute nothing to `process_links`. -/
theorem process_links_filter (links : List Str) :
    process_links links = process_links (links.filter lever_validate_link) := by
  induction links with
  | nil => rfl
  | cons l rest ih =>
    by_cases h : lever_validate_link l = true
    · simp only [process_links, h, if_true, List.filter_cons_of_pos h]
      simp only [process_links, h, if_true, ih]
    · have hf : lever_validate_link l = false := by
        cases hb : lever_validate_link l with
        | false => rfl
        | true => exact absurd hb h
      rw [List.filter_cons_of_neg (by simp [hf])]
      simp only [process_links, hf, Bool.false_eq_true, if_false, ih]

/-! ## Claim theorems -/

/-- C1: `classify` scans tokens in encounter order and returns at the
first token matching any table, with per-token rule order: 2-letter
abbreviated-state hit → `true`; else foreign-country hit → `false`;
else full-state hit → `true`; else US-city hit → `true`; else
non-US-city hit → `false`; no match at all → `none`, which the caller
(`save_job_info`) treats as non-qualifying.  In particular `["ca"]`
gives `true`, `["germany"]` gives `false`, `["remote"]` gives
`none`. -/
theorem C1_classify_order (tb : Tables) (tok : Str) (rest : List Str)
    (hca : chars "ca" ∈ tb.us_states_abbreviated)
    (hger : chars "germany" ∈ tb.foreign_countries)
    (hrem : chars "remote" ∉ tb.us_states_abbreviated ∧
      chars "remote" ∉ tb.foreign_countries ∧ chars "remote" ∉ tb.us_states_full ∧
      chars "remote" ∉ tb.us_cities ∧ chars "remote" ∉ tb.non_us_cities) :
    validate_location_in_usa [] tb = none ∧
    (validate_location_in_usa (tok :: rest) tb =
      if tok.length = 2 ∧ tok ∈ tb.us_states_abbreviated then some true
      else if tok ∈ tb.foreign_countries then some false
      else if tok ∈ tb.us_states_full then some true
      else if tok ∈ tb.us_cities then some true
      else if tok ∈ tb.non_us_cities then some false
      else validate_location_in_usa rest tb) ∧
    validate_location_in_usa [chars "ca"] tb = some true ∧
    validate_location_in_usa [chars "germany"] tb = some false ∧
    validate_location_in_usa [chars "remote"] tb = none ∧
    (∀ (fetch : LinkRecord → Option Page) (today : Str) (j : LinkRecord)
        (tail : List LinkRecord) (page : Page) (toks : List Str),
      fetch j = some page → parse_location_info page = some toks →
      validate_location_in_usa toks tb = none →
      save_job_info_records fetch tb today (j :: tail) =
        save_job_info_records fetch tb today tail) := by
  obtain ⟨hr1, hr2, hr3, hr4, hr5⟩ := hrem
  refine ⟨rfl, ?_, ?_, ?_, ?_, ?_⟩
  · simp [validate_location_in_usa, check_if_exists_in_array]
  · have h2 : (chars "ca").length = 2 := by decide
    simp [validate_location_in_usa, check_if_exists_in_array, h2, hca]
  · have h7 : ¬ (chars "germany").length = 2 := by decide
    simp [validate_location_in_usa, check_if_exists_in_array, h7, hger]
  · simp [validate_location_in_usa, check_if_exists_in_array, hr1, hr2, hr3, hr4, hr5]
  · intro fetch today j tail page toks hf hp hcl
    simp only [save_job_info_records, hf, hp, hcl]
    simp

/-- Witness for C1 at concrete tables. -/
theorem C1_classify_order_witness :
    validate_location_in_usa [chars "ca"]
      ⟨[chars "germany"], [], [], [], [chars "ca"]⟩ = some true ∧
    validate_location_in_usa [chars "germany"]
      ⟨[chars "germany"], [], [], [], [chars "ca"]⟩ = some false ∧
    validate_location_in_usa [chars "remote"]
      ⟨[chars "germany"], [], [], [], [chars "ca"]⟩ = none :=
  have h := C1_classify_order ⟨[chars "germany"], [], [], [], [chars "ca"]⟩
    (chars "ca") [] (by decide) (by decide) (by decide)
  ⟨h.2.2.1, h.2.2.2.1, h.2.2.2.2.1⟩

/-- C4: the store writes exactly when the batch has strictly more than
one record; a fresh destination is created with a header row, and when
the create attempt fails because the destination exists, the rows are
appended without a header. -/
theorem C4_store (α : Type) (rows : List α) (destExists : Bool) :
    (save_job_info_store rows destExists ≠ none ↔ 1 < rows.length) ∧
    (to_csv_create destExists rows = none ↔ destExists = true) ∧
    (1 < rows.length →
      save_job_info_store rows false =
        some { mode_append := false, header := true, rows := rows } ∧
      save_job_info_store rows true =
        some { mode_append := true, header := false, rows := rows }) := by
  refine ⟨?_, ?_, ?_⟩
  · by_cases h : 1 < rows.length <;>
      simp [save_job_info_store, to_csv_create, h] <;> cases destExists <;> simp
  · cases destExists <;> simp [to_csv_create]
  · intro h
    simp [save_job_info_store, to_csv_create, h]

/-- Witness for C4: two records are written (create-with-header on a
fresh destination, append-no-header on an existing one); one record is
not written. -/
theorem C4_store_witness :
    save_job_info_store [0, 1] false =
      some { mode_append := false, header := true, rows := [0, 1] } ∧
    save_job_info_store [0, 1] true =
      some { mode_append := true, header := false, rows := [0, 1] } ∧
    save_job_info_store [0] false = none :=
  have h2 := (C4_store Nat [0, 1] false).2.2 (by decide)
  have h1 := (C4_store Nat [0] false).1
  ⟨h2.1, h2.2, by
    cases hs : save_job_info_store [0] false with
    | none => rfl
    | some w =>
      exact absurd (by decide : ¬ 1 < ([0] : List Nat).length) (fun hn => hn (h1.1 (by simp [hs])))⟩

theorem clean_fold_eq_join : ∀ (l : List Str) (acc : Str),
    l.foldl (fun acc s => acc ++ pyReplace (chars "\x22") [] s ++ chars " ") acc =
      acc ++ (l.map (fun s => pyReplace (chars "\x22") [] s ++ chars " ")).flatten := by
  intro l
  induction l with
  | nil => intro acc; simp
  | cons s t ih =>
    intro acc
    simp only [List.foldl_cons, List.map_cons, List.flatten, ih]
    simp [List.append_assoc]

/-- C5 counterexample: the item `"[ab]"` has cleaned length 2 (< 4),
yet it is not discarded — `_clean_desc_and_qual` filters on the raw
length, which is 4, so the output is `"ab "` rather than empty. -/
theorem C5_counterexample :
    (clean_item (chars "[ab]")).length < 4 ∧
    clean_desc_and_qual [chars "[ab]"] = chars "ab " ∧
    chars "ab " ≠ ([] : Str) := by decide

/-- C5 (amended): cleaning discards every item whose RAW length
(before cleaning) is less than 4 characters, cleans the kept items
(non-breaking-space artifact to a space, brackets removed), removes
their double quotes, and concatenates them, each item followed by a
single space.  The claim's example still holds: `"ab"` and `"x"` are
dropped, `"[bracketed]"` loses its brackets. -/
theorem C5_clean_desc_amended (items : List Str) :
    clean_desc_and_qual items =
      ((items.filter (fun j => 3 < j.length)).map
        (fun j => pyReplace (chars "\x22") [] (clean_item j) ++ chars " ")).flatten ∧
    clean_desc_and_qual [chars "ab", chars "valid text", chars "[bracketed]", chars "x"] =
      chars "valid text bracketed " := by
  constructor
  · show (((items.filter (fun j => 3 < j.length)).map clean_item).foldl
      (fun acc s => acc ++ pyReplace (chars "\x22") [] s ++ chars " ") []) = _
    rw [clean_fold_eq_join]
    simp only [List.map_map]
    rfl
  · decide

/-- C8: a title text containing `"remote"` (case-insensitively) makes
the parse set location to `"Remote"`, and the later location step
never overwrites an already-set location — it consults the location
region only when the location is still unset. -/
theorem C8_remote_priority (page : Page) (h : Str) (d a : Option Str) (today : Str)
    (ht : page.title = some h)
    (hr : pyContains (chars "remote") (pyLower h) = true) :
    (export_posting_info page d a today).location = some (chars "Remote") ∧
    (∀ (p q : Page) (l : Str), parse_location_step p (some l) = parse_location_step q (some l)) ∧
    (∀ (p : Page) (l : Str), parse_location_step p (some l) = some l) := by
  refine ⟨?_, fun p q l => rfl, fun p l => rfl⟩
  simp [export_posting_info, parse_using_title_tag, parse_location_step, ht, hr]

/-- Witness for C8 on a concrete page whose title mentions Remote. -/
theorem C8_remote_priority_witness :
    (export_posting_info
      { title := some (chars "Acme - Remote - Engineer"),
        locationDiv := some (chars "Berlin") } none none []).location =
      some (chars "Remote") :=
  (C8_remote_priority
    { title := some (chars "Acme - Remote - Engineer"),
      locationDiv := some (chars "Berlin") }
    (chars "Acme - Remote - Engineer") none none [] rfl (by decide)).1

/-- C9: fault isolation — a failed fetch (`None` page) skips that
posting and leaves the rest of the batch processed unchanged, and
within one posting's parse each extraction step only ever affects its
own field: removing any one region of the page nulls that step's field
and leaves every other field of the exported record unchanged. -/
theorem C9_fault_isolation (fetch : LinkRecord → Option Page) (tb : Tables) (today : Str)
    (j : LinkRecord) (rest : List LinkRecord) (hj : fetch j = none) (page : Page)
    (d a : Option Str) :
    save_job_info_records fetch tb today (j :: rest) =
      save_job_info_records fetch tb today rest ∧
    export_posting_info { page with departmentDiv := none } d a today =
      { export_posting_info page d a today with team := none } ∧
    export_posting_info { page with commitmentDiv := none } d a today =
      { export_posting_info page d a today with hours := none } ∧
    export_posting_info { page with workplaceTypesDiv := none } d a today =
      { export_posting_info page d a today with wfh := none } ∧
    export_posting_info { page with sections := [] } d a today =
      { export_posting_info page d a today with desc := none, qual := none } ∧
    export_posting_info { page with salaryRangeDiv := none, closingDescDiv := none } d a today =
      { export_posting_info page d a today with min_salary := none, max_salary := none } ∧
    (∃ l, export_posting_info { page with locationDiv := none } d a today =
      { export_posting_info page d a today with location := l }) ∧
    (∃ c t l, export_posting_info { page with title := none } d a today =
      { export_posting_info page d a today with company := c, title := t, location := l }) := by
  refine ⟨?_, ?_, ?_, ?_, ?_, ?_, ?_, ?_⟩
  · simp only [save_job_info_records, hj]
  · simp [export_posting_info, parse_using_title_tag, parse_location_step, parse_salary]
  · simp [export_posting_info, parse_using_title_tag, parse_location_step, parse_salary]
  · simp [export_posting_info, parse_using_title_tag, parse_location_step, parse_salary]
  · simp [export_posting_info, parse_using_title_tag, parse_location_step, parse_salary]
  · simp [export_posting_info, parse_using_title_tag, parse_location_step, parse_salary]
  · exact ⟨(export_posting_info { page with locationDiv := none } d a today).location,
      by simp [export_posting_info, parse_using_title_tag, parse_location_step, parse_salary]⟩
  · exact ⟨none, none, (export_posting_info { page with title := none } d a today).location,
      by simp [export_posting_info, parse_using_title_tag, parse_location_step, parse_salary]⟩

/-- Witness for C9: a fetch that always fails produces no records and
does not abort the batch. -/
theorem C9_fault_isolation_witness :
    save_job_info_records (fun _ => none) ⟨[], [], [], [], []⟩ []
        [{ desc := none, apply := none }] =
      save_job_info_records (fun _ => none) ⟨[], [], [], [], []⟩ [] [] :=
  (C9_fault_isolation (fun _ => none) ⟨[], [], [], [], []⟩ []
    { desc := none, apply := none } [] rfl {} none none).1

/-- C10 (implicit claim): validation demands that the first
`len(domain)` characters equal the domain exactly, so with the
configured domain `"lever.co"` every link that starts with a scheme
prefix such as `"https://"` is rejected, and `process_links` produces
no record for such links. -/
theorem C10_scheme_prefixed_links_rejected :
    (∀ link : Str, lever_validate_link link = true → link.take 8 = lever_url) ∧
    (∀ link : Str, (chars "https://").isPrefixOf link = true →
      lever_validate_link link = false) ∧
    (∀ links : List Str, (∀ l ∈ links, (chars "https://").isPrefixOf l = true) →
      process_links links = []) := by
  have key : ∀ link : Str, (chars "https://").isPrefixOf link = true →
      lever_validate_link link = false := by
    intro link hp
    cases hv : lever_validate_link link with
    | false => rfl
    | true =>
      have h1 : link.take 8 = lever_url := validate_take_eq hv
      have h2 : link.take 8 = chars "https://" := by
        have := pfx_take hp
        simpa using this
      rw [h1] at h2
      exact absurd h2 (by decide)
  refine ⟨fun link h => validate_take_eq h, key, ?_⟩
  intro links hall
  induction links with
  | nil => rfl
  | cons l rest ih =>
    have hl := key l (hall l (by simp))
    simp only [process_links, hl, Bool.false_eq_true, if_false]
    exact ih (fun x hx => hall x (by simp [hx]))

/-- Witness for C10 on a concrete scheme-prefixed link. -/
theorem C10_scheme_prefixed_links_rejected_witness :
    lever_validate_link (chars "https://jobs.lever.co/acme/123") = false ∧
    process_links [chars "https://jobs.lever.co/acme/123"] = [] :=
  ⟨C10_scheme_prefixed_links_rejected.2.1 (chars "https://jobs.lever.co/acme/123") (by decide),
   C10_scheme_prefixed_links_rejected.2.2 [chars "https://jobs.lever.co/acme/123"]
     (by intro l hl; simp at hl; subst hl; decide)⟩

/-- C2 counterexample: for the valid url `"lever.co/apply/apply"`
(last segment `"apply"`), the code's `iLink.replace('apply', '')`
removes EVERY occurrence of `"apply"`, producing the description url
`"lever.co//"` — not the input with only the last `"apply"` segment
removed (which would be `"lever.co/apply/"` or `"lever.co/apply"`) —
and the pair is not related by suffixing `"/apply"` either. -/
theorem C2_counterexample :
    lever_validate_link (chars "lever.co/apply/apply") = true ∧
    process_links [chars "lever.co/apply/apply"] =
      [{ desc := some (chars "lever.co//"), apply := some (chars "lever.co/apply/apply") }] ∧
    chars "lever.co//" ≠ chars "lever.co/apply/" ∧
    chars "lever.co//" ≠ chars "lever.co/apply" ∧
    chars "lever.co//" ++ chars "apply" ≠ chars "lever.co/apply/apply" ∧
    chars "lever.co//" ++ chars "/apply" ≠ chars "lever.co/apply/apply" := by decide

/-- C2 (amended): for every validated url, `process_links` sets both
URLs; when the last path segment (lowercased) is not `"apply"`, the
description url is the input (non-empty) and the application url is
the description url plus `"apply"`, with a `'/'` inserted exactly when
the input does not already end in one; when the last segment is
`"apply"`, the application url is the input and the description url is
the input with every occurrence of the lowercase substring `"apply"`
removed. -/
theorem C2_link_record_amended (l : Str) (h : lever_validate_link l = true) :
    ∃ r, process_links [l] = [r] ∧ r.desc ≠ none ∧ r.apply ≠ none ∧
      (pyLower (lastSegment l) ≠ chars "apply" →
        r.desc = some l ∧ l ≠ [] ∧
        r.apply = some (l ++ (if l.getLast? = some '/' then chars "apply" else chars "/apply"))) ∧
      (pyLower (lastSegment l) = chars "apply" →
        r.apply = some l ∧ r.desc = some (pyReplace (chars "apply") [] l)) := by
  have hne : l ≠ [] := ((validate_link_iff l).1 h).1
  by_cases hseg : pyLower (lastSegment l) = chars "apply"
  · refine ⟨{ desc := some (pyReplace (chars "apply") [] l), apply := some l }, ?_, by simp,
      by simp, fun hc => absurd hseg hc, fun _ => ⟨rfl, rfl⟩⟩
    simp [process_links, h, hseg]
  · refine ⟨⟨some l, some ((if l.getLast? ≠ some '/' then l ++ ['/'] else l) ++ chars "apply")⟩,
      ?_, by simp, by simp, fun _ => ⟨rfl, hne, ?_⟩, fun hc => absurd hc hseg⟩
    · simp [process_links, h, hseg]
    · by_cases hlast : l.getLast? = some '/'
      · simp [hlast]
      · simp [hlast, List.append_assoc]
        rfl

/-- Witness for C2 (amended) at a concrete description url. -/
theorem C2_link_record_amended_witness :
    ∃ r, process_links [chars "lever.co/x"] = [r] ∧ r.desc ≠ none ∧ r.apply ≠ none ∧
      (pyLower (lastSegment (chars "lever.co/x")) ≠ chars "apply" →
        r.desc = some (chars "lever.co/x") ∧ chars "lever.co/x" ≠ [] ∧
        r.apply = some (chars "lever.co/x" ++
          (if (chars "lever.co/x").getLast? = some '/' then chars "apply"
           else chars "/apply"))) ∧
      (pyLower (lastSegment (chars "lever.co/x")) = chars "apply" →
        r.apply = some (chars "lever.co/x") ∧
        r.desc = some (pyReplace (chars "apply") [] (chars "lever.co/x"))) :=
  C2_link_record_amended (chars "lever.co/x") (by decide)

/-- C6 counterexample: for the link `"lever.cohttps://jobs.lever.co/"`
the spec's reading (strip the canonical prefix from the front, then
count path segments) accepts, but the code's `replace` deletes the
embedded occurrence of `"https://jobs.lever.co/"`, leaving
`"lever.co"` with a single segment, so `_validate_link` rejects. -/
theorem C6_counterexample :
    validate_link_spec (chars "lever.cohttps://jobs.lever.co/") = true ∧
    lever_validate_link (chars "lever.cohttps://jobs.lever.co/") = false := by decide

/-- C6 (amended): `_validate_link` accepts exactly the non-empty links
longer than the domain that start with the domain, contain no
`"/?q="`, and still split into more than one `'/'`-segment after
every occurrence of the substring `"https://jobs.lever.co/"` has been
removed; and `process_links` produces records only for links accepted
by the validation (invalid links are silently dropped). -/
theorem C6_validate_amended :
    (∀ link : Str, lever_validate_link link = true ↔
      (link ≠ [] ∧ 8 < link.length ∧ (chars "lever.co").isPrefixOf link = true ∧
       pyContains (chars "/?q=") link = false ∧
       1 < (splitChar '/' (pyReplace (chars "https://jobs.lever.co/") [] link)).length)) ∧
    (∀ links : List Str,
      process_links links = process_links (links.filter lever_validate_link)) := by
  refine ⟨?_, process_links_filter⟩
  intro link
  rw [validate_link_iff]
  constructor
  · rintro ⟨h1, h2, h3, h4, h5⟩
    refine ⟨h1, h2, ?_, h4, h5⟩
    have ht : link.take 8 = chars "lever.co" := validate_take_eq ((validate_link_iff link).2
      ⟨h1, h2, h3, h4, h5⟩)
    exact pfx_of_take (by simpa using ht)
  · rintro ⟨h1, h2, h3, h4, h5⟩
    refine ⟨h1, h2, ?_, h4, h5⟩
    have ht := pfx_take h3
    simp only [show (chars "lever.co").length = 8 from by decide] at ht
    rw [ht]
    exact pyContains_self _

/-- Witness for C6 (amended): the five conditions accept a concrete
posting link. -/
theorem C6_validate_amended_witness :
    lever_validate_link (chars "lever.co/acme/123") = true :=
  (C6_validate_amended.1 (chars "lever.co/acme/123")).2
    ⟨by decide, by decide, by decide, by decide, by decide⟩

/-- C3: salary parsing takes the money tokens of the salary-range
section (or of the closing-description section when the former is
absent); with fewer than two parsed numbers — including a failing
parse — both salaries stay absent, and with two or more the maximum
becomes `max_salary` and the second largest `min_salary`. -/
theorem C3_salary_extraction (page : Page) (text : Str) (r : Option (List Nat))
    (hsel : page.salaryRangeDiv = some text ∨
      (page.salaryRangeDiv = none ∧ page.closingDescDiv = some text))
    (hr : clean_money_string text = r) :
    (r = none → parse_salary page = (none, none)) ∧
    (∀ nums : List Nat, r = some nums → nums.length ≤ 1 →
      parse_salary page = (none, none)) ∧
    (∀ nums : List Nat, r = some nums → 2 ≤ nums.length →
      ∃ mx m2, parse_salary page = (some m2, some mx) ∧
        mx ∈ nums ∧ (∀ x ∈ nums, x ≤ mx) ∧
        m2 ∈ nums.erase mx ∧ (∀ x ∈ nums.erase mx, x ≤ m2)) := by
  subst hr
  have hsal : parse_salary page =
      (match clean_money_string text with
       | none => (none, none)
       | some salary =>
         if 1 < salary.length then ((sortDesc salary).get? 1, (sortDesc salary).get? 0)
         else (none, none)) := by
    rcases hsel with h | ⟨h1, h2⟩
    · simp only [parse_salary, h]
    · simp only [parse_salary, h1, h2]
  refine ⟨?_, ?_, ?_⟩
  · intro h
    rw [hsal, h]
  · intro nums hn hlen
    rw [hsal, hn]
    simp only [show ¬ 1 < nums.length from by omega, if_false]
  · intro nums hn hlen
    rw [hsal, hn]
    have hperm : List.Perm (sortDesc nums) nums := List.perm_insertionSort _ nums
    have hlens : (sortDesc nums).length = nums.length := hperm.length_eq
    have hsort : (sortDesc nums).Sorted (fun a b => b ≤ a) :=
      List.sorted_insertionSort _ nums
    cases hs : sortDesc nums with
    | nil => rw [hs] at hlens; simp at hlens; omega
    | cons m1 tl =>
      cases tl with
      | nil => rw [hs] at hlens; simp at hlens; omega
      | cons m2 rest =>
        rw [hs] at hsort hperm
        have hm1 : ∀ b ∈ m2 :: rest, b ≤ m1 := (List.sorted_cons.1 hsort).1
        have hm2 : ∀ b ∈ rest, b ≤ m2 :=
          (List.sorted_cons.1 (List.sorted_cons.1 hsort).2).1
        have he : List.Perm (nums.erase m1) (m2 :: rest) := by
          have h1 : List.Perm (nums.erase m1) ((m1 :: m2 :: rest).erase m1) :=
            (hperm.symm).erase m1
          rwa [List.erase_cons_head] at h1
        refine ⟨m1, m2, ?_, ?_, ?_, ?_, ?_⟩
        · simp only [show 1 < nums.length from by omega, if_true, hs]
          rfl
        · exact hperm.mem_iff.1 (by simp)
        · intro x hx
          have hx' : x ∈ m1 :: m2 :: rest := hperm.mem_iff.2 hx
          rcases List.mem_cons.1 hx' with h | h
          · omega
          · exact hm1 x h
        · exact he.mem_iff.2 (by simp)
        · intro x hx
          have hx' : x ∈ m2 :: rest := he.mem_iff.1 hx
          rcases List.mem_cons.1 hx' with h | h
          · omega
          · exact hm2 x h

/-- Witness for C3 on the claim's example: the salary-range text
`"$120,000- $150,000"` (tokens `"$120,000-"` and `"$150,000"`) yields
`max_salary = 150000` and `min_salary = 120000`. -/
theorem C3_salary_extraction_witness :
    parse_salary { salaryRangeDiv := some (chars "$120,000- $150,000") } =
      (some 120000, some 150000) ∧
    (∃ mx m2, parse_salary { salaryRangeDiv := some (chars "$120,000- $150,000") } =
        (some m2, some mx) ∧
      mx ∈ [120000, 150000] ∧ (∀ x ∈ [120000, 150000], x ≤ mx) ∧
      m2 ∈ ([120000, 150000] : List Nat).erase mx ∧
      (∀ x ∈ ([120000, 150000] : List Nat).erase mx, x ≤ m2)) :=
  ⟨by decide,
   (C3_salary_extraction { salaryRangeDiv := some (chars "$120,000- $150,000") }
     (chars "$120,000- $150,000") (some [120000, 150000]) (Or.inl rfl) (by decide)).2.2
     [120000, 150000] rfl (by decide)⟩

/-- C7 counterexample: `"lever.cohttps://jobs.lever.co"` validates,
its derived application url is `"lever.cohttps://jobs.lever.co/apply"`,
but appending `"/apply"` completes an occurrence of
`"https://jobs.lever.co/"`, which `_validate_link`'s `replace` deletes,
leaving a single segment — so the derived url fails validation. -/
theorem C7_counterexample :
    lever_validate_link (chars "lever.cohttps://jobs.lever.co") = true ∧
    derived_paired_url (chars "lever.cohttps://jobs.lever.co") =
      some (chars "lever.cohttps://jobs.lever.co/apply") ∧
    lever_validate_link (chars "lever.cohttps://jobs.lever.co/apply") = false := by decide

/-- C7 (amended): for every url accepted by validation, the paired URL
derived by `process_links` (application url for a description url,
description url for an `"apply"` url) again passes validation,
provided the derived url contains neither the substring
`"https://jobs.lever.co/"` nor `"/?q="`. -/
theorem C7_round_trip_amended (u d : Str)
    (hu : lever_validate_link u = true)
    (hd : derived_paired_url u = some d)
    (hP : pyContains (chars "https://jobs.lever.co/") d = false)
    (hq : pyContains (chars "/?q=") d = false) :
    lever_validate_link d = true := by
  obtain ⟨h1, h2, h3, h4, h5⟩ := (validate_link_iff u).1 hu
  have h8 : lever_url.length = 8 := by decide
  have hud : derived_paired_url u =
      (if pyLower (lastSegment u) = chars "apply" then some (pyReplace (chars "apply") [] u)
       else some ((if u.getLast? ≠ some '/' then u ++ ['/'] else u) ++ chars "apply")) := by
    by_cases hseg : pyLower (lastSegment u) = chars "apply" <;>
      simp [derived_paired_url, process_links, hu, hseg]
  rw [hud] at hd
  have hgen : ∀ w : Str, '/' ∈ w →
      pyContains (chars "https://jobs.lever.co/") w = false →
      pyContains (chars "/?q=") w = false →
      8 < w.length → w.take 8 = lever_url →
      lever_validate_link w = true := by
    intro w hsl hPP hqq hlw htk
    refine (validate_link_iff _).2 ⟨?_, hlw, ?_, hqq, ?_⟩
    · exact List.length_pos.1 (by omega)
    · rw [htk]; exact pyContains_self _
    · rw [pyReplace_of_not_contains hPP]
      have := splitChar_two_le_of_mem hsl
      omega
  obtain ⟨t, hut⟩ := validate_exists_tail hu
  by_cases hseg : pyLower (lastSegment u) = chars "apply"
  · rw [if_pos hseg] at hd
    have hdX : pyReplace (chars "apply") [] u = d := Option.some.inj hd
    subst hdX
    have hslash_u : '/' ∈ u := by
      by_contra hns
      have hsp : splitChar '/' u = [u] := splitChar_eq_self_of_not_mem hns
      have hlastseg : lastSegment u = u := by simp [lastSegment, hsp]
      rw [hlastseg] at hseg
      have hlg := congrArg List.length hseg
      rw [pyLower_length] at hlg
      simp [chars] at hlg
      omega
    have hslash_t : '/' ∈ t := by
      rw [hut] at hslash_u
      rcases List.mem_append.1 hslash_u with h | h
      · exact absurd h (by decide)
      · exact h
    have hno : ∀ i < lever_url.length,
        (chars "apply").isPrefixOf ((lever_url ++ t).drop i) = false := by
      intro i hi
      have hlev : lever_url = ['l', 'e', 'v', 'e', 'r', '.', 'c', 'o'] := by decide
      rw [h8] at hi
      rw [hlev]
      interval_cases i <;> simp [List.isPrefixOf]
    have hrepl : pyReplace (chars "apply") [] u =
        lever_url ++ pyReplace (chars "apply") [] t := by
      rw [hut]
      exact pyReplace_append_no_match [] lever_url t hno
    have hmem : '/' ∈ pyReplace (chars "apply") [] t :=
      mem_pyReplace_of_mem (by decide) hslash_t []
    refine hgen _ ?_ hP hq ?_ ?_
    · rw [hrepl]
      exact List.mem_append.2 (Or.inr hmem)
    · rw [hrepl, List.length_append, h8]
      have : 0 < (pyReplace (chars "apply") [] t).length :=
        List.length_pos.2 (List.ne_nil_of_mem hmem)
      omega
    · rw [hrepl]
      have hp := pfx_take (pfx_append lever_url (pyReplace (chars "apply") [] t))
      rw [h8] at hp
      exact hp
  · rw [if_neg hseg] at hd
    have hdX : (if u.getLast? ≠ some '/' then u ++ ['/'] else u) ++ chars "apply" = d :=
      Option.some.inj hd
    have htku : ∀ sfx : Str, (u ++ sfx).take 8 = lever_url := by
      intro sfx
      rw [hut, List.append_assoc]
      have hp := pfx_take (pfx_append lever_url (t ++ sfx))
      rw [h8] at hp
      exact hp
    by_cases hlast : u.getLast? = some '/'
    · rw [if_neg (by simp [hlast])] at hdX
      subst hdX
      refine hgen _ ?_ hP hq ?_ (htku _)
      · refine List.mem_append.2 (Or.inl ?_)
        obtain ⟨hne0, hx⟩ := List.mem_getLast?_eq_getLast (Option.mem_def.2 hlast)
        rw [hx]
        exact List.getLast_mem hne0
      · rw [List.length_append]; omega
    · rw [if_pos hlast, List.append_assoc,
        show ['/'] ++ chars "apply" = chars "/apply" from by decide] at hdX
      subst hdX
      refine hgen _ ?_ hP hq ?_ (htku _)
      · exact List.mem_append.2 (Or.inr (by decide))
      · rw [List.length_append]; omega

/-- Witness for C7 (amended): the round trip succeeds on a concrete
description url. -/
theorem C7_round_trip_amended_witness :
    lever_validate_link (chars "lever.co/x/apply") = true :=
  C7_round_trip_amended (chars "lever.co/x") (chars "lever.co/x/apply")
    (by decide) (by decide) (by decide) (by decide)
